import Mathlib

/-!
Verification of the iterator core of the `fun` library (package `iter`,
file `iter.go`).

The Go type `Seq[V] = func(yield func(V) bool) bool` is a push-style
sequence: running it calls `yield` on each produced value until `yield`
returns `false` (early stop) or the values run out; the run returns
`false` when it was stopped early and `true` on natural completion.

Shallow embedding used here:

* A downstream consumer (`yield` callback) may close over mutable state,
  so it is embedded as a state-transforming function
  `σ → V → σ × Bool` (`Yield σ V` below).
* A finite well-behaved sequence is denoted by the list of elements it
  produces; `runList l yield s` is the run of that sequence against a
  stateful yield, exactly the contract of the data model: call `yield`
  on each element in order, stop and return `false` as soon as `yield`
  returns `false`, return `true` when the elements are exhausted.
* Each Go combinator applied to such a sequence becomes a Lean function
  from the upstream element list (plus the combinator arguments) and a
  downstream `Yield` to the resulting run.  Closures with mutable state
  (`took`, `skipped`, `chunk`, `seen`) become explicit state threaded
  through the run, mirroring the Go code line by line.
* Go `panic` (in `Take` and `Chunked`) is embedded as `Option`: `none`
  is the panic, `some` the normal run.
* Go `int` is embedded as `Int` (counter values stay far below 2^63 for
  finite lists, so wrap-around is irrelevant and not modelled).
-/

namespace iter

/-- A stateful downstream yield callback: given its state and a value it
returns the new state and whether production should continue. -/
def Yield (σ V : Type) : Type := σ → V → σ × Bool

/-- Run of a finite well-behaved sequence that produces exactly the
elements of `l` in order (the denotation of `FromMany(l...)` and, by the
data-model contract, of any finite well-behaved `Seq`): call `yield` on
each element until it returns `false`; return `false` iff stopped early. -/
def runList {σ V : Type} (l : List V) (yield : Yield σ V) (s : σ) : σ × Bool :=
  match l with
  | [] => (s, true)
  | v :: rest =>
    let q := yield s v
    if q.2 then runList rest yield q.1 else (q.1, false)

/-- Instrumented variant of `runList` that also counts how many elements
the sequence was asked to produce (how many times `yield` was invoked). -/
def runListCount {σ V : Type} (l : List V) (yield : Yield σ V) (s : σ) :
    Nat × σ × Bool :=
  match l with
  | [] => (0, s, true)
  | v :: rest =>
    let q := yield s v
    if q.2 then
      let r := runListCount rest yield q.1
      (r.1 + 1, r.2)
    else (1, q.1, false)

/-- Modelled from the spec: the terminal consumer `ToSlice` fully drains
a sequence and collects the yielded values in order (`ToSlice` itself is
repository code outside `src/`).  Its yield callback appends each value
to an accumulator and always continues. -/
def collectYield {V : Type} : Yield (List V) V := fun acc v => (acc ++ [v], true)

/-- The yield callback that `Map(seq, f)` installs on its upstream:
`return yield(f(a))` (iter.go lines 59-66). -/
def mapYield {σ I O : Type} (f : I → O) (yield : Yield σ O) : Yield σ I :=
  fun s a => yield s (f a)

/-- The yield callback that `Filter(seq, p)` installs on its upstream:
`if p(a) && !yield(a) { return false }; return true`
(iter.go lines 248-259). -/
def filterYield {σ V : Type} (p : V → Bool) (yield : Yield σ V) : Yield σ V :=
  fun s a => if p a then yield s a else (s, true)

/-- Run of `Map(seq, f)` against a downstream yield, with the upstream
sequence denoted by `l`. -/
def Map {σ I O : Type} (l : List I) (f : I → O) (yield : Yield σ O) (s : σ) :
    σ × Bool :=
  runList l (mapYield f yield) s

/-- Run of `Filter(seq, p)` against a downstream yield, with the
upstream sequence denoted by `l`. -/
def Filter {σ V : Type} (l : List V) (p : V → Bool) (yield : Yield σ V) (s : σ) :
    σ × Bool :=
  runList l (filterYield p yield) s

/-- The callback that `Take(xs, n)` installs on its upstream, with its
closure variable `took` made explicit as the first state component:
`if took == n { return false }; took++; return yield(v)`
(iter.go lines 221-228). -/
def takeYield {σ V : Type} (n : Int) (yield : Yield σ V) : Yield (Int × σ) V :=
  fun p v =>
    if p.1 = n then ((p.1, p.2), false)
    else
      let q := yield p.2 v
      ((p.1 + 1, q.1), q.2)

/-- Run of `Take(xs, n)` (iter.go lines 214-230).  `n < 0` panics
(`none`).  Otherwise the closure state `took` starts at `0` and the
upstream is run with `takeYield`. -/
def Take {σ V : Type} (n : Int) (l : List V) (yield : Yield σ V) (s : σ) :
    Option (σ × Bool) :=
  if n < 0 then none
  else
    let r := runList l (takeYield n yield) ((0 : Int), s)
    some (r.1.2, r.2)

/-- The callback that `Skip(xs, n)` installs on its upstream, with its
closure variable `skipped` made explicit as the first state component:
`if skipped == n { return yield(a) }; skipped++; return true`
(iter.go lines 236-243). -/
def skipYield {σ V : Type} (n : Int) (yield : Yield σ V) : Yield (Int × σ) V :=
  fun p a =>
    if p.1 = n then
      let q := yield p.2 a
      ((p.1, q.1), q.2)
    else ((p.1 + 1, p.2), true)

/-- Run of `Skip(xs, n)` (iter.go lines 233-245): the closure state
`skipped` starts at `0` and the upstream is run with `skipYield`. -/
def Skip {σ V : Type} (n : Int) (l : List V) (yield : Yield σ V) (s : σ) :
    σ × Bool :=
  let r := runList l (skipYield n yield) ((0 : Int), s)
  (r.1.2, r.2)

/-- The callback that `TakeWhile(xs, p)` installs on its upstream:
`if !p(a) { return false }; yield(a); return true`
(iter.go lines 281-288).  Note: the result of `yield` is discarded and
the callback always returns `true` after a passing element, exactly as
in the Go code. -/
def takeWhileYield {σ V : Type} (p : V → Bool) (yield : Yield σ V) :
    Yield σ V :=
  fun s a =>
    if p a then
      let q := yield s a
      (q.1, true)
    else (s, false)

/-- Run of `TakeWhile(xs, p)` (iter.go lines 279-290). -/
def TakeWhile {σ V : Type} (l : List V) (p : V → Bool) (yield : Yield σ V)
    (s : σ) : σ × Bool :=
  runList l (takeWhileYield p yield) s

/-- ToSlice applied to `TakeWhile(xs, p)`: the collected output together
with the run result. -/
def takeWhileToSlice {V : Type} (l : List V) (p : V → Bool) : List V × Bool :=
  TakeWhile l p collectYield []

/-- A downstream yield that always answers `false` and counts how many
times it was invoked; used to observe the stop-signal invariant. -/
def countingFalseYield {V : Type} : Yield Nat V := fun c _ => (c + 1, false)

/-- ToSlice applied to `Take(xs, n)` (`none` is the panic). -/
def takeToSlice {V : Type} (n : Int) (l : List V) : Option (List V × Bool) :=
  Take n l collectYield []

/-- ToSlice applied to `Skip(xs, n)`. -/
def skipToSlice {V : Type} (n : Int) (l : List V) : List V × Bool :=
  Skip n l collectYield []

/-- A downstream yield that keeps no state and always answers `true`
(a consumer that never stops). -/
def alwaysTrueYield {σ V : Type} : Yield σ V := fun s _ => (s, true)

/-- The callback that `Chunked(xs, n)` installs on its upstream, with
its closure variable `chunk` made explicit as the first state
component (iter.go lines 157-168):
`chunk = append(chunk, a); if len(chunk) == n { if !yield(copy of chunk) { return false }; chunk = chunk[:0] }; return true`.
The Go buffer is reused after being copied out; in the model the
yielded list and the reset buffer are independent values, which is
exactly the observable behaviour of yielding a fresh copy. -/
def chunkYield {σ A : Type} (n : Int) (yield : Yield σ (List A)) :
    Yield (List A × σ) A :=
  fun p a =>
    let chunk := p.1 ++ [a]
    if (chunk.length : Int) = n then
      let q := yield p.2 chunk
      (([], q.1), q.2)
    else ((chunk, p.2), true)

/-- Run of `Chunked(xs, n)` (iter.go lines 150-174).  `n <= 0` panics
(`none`).  Otherwise the upstream is run with `chunkYield` starting
from an empty buffer; on early stop the run reports `false`
(lines 168-170), and after natural completion the leftover partial
chunk is yielded if nonempty: `return len(chunk) == 0 || yield(chunk)`
(line 172). -/
def Chunked {σ A : Type} (n : Int) (l : List A) (yield : Yield σ (List A))
    (s : σ) : Option (σ × Bool) :=
  if n ≤ 0 then none
  else
    let r := runList l (chunkYield n yield) ([], s)
    if r.2 then
      if r.1.1.length = 0 then some (r.1.2, true)
      else
        let q := yield r.1.2 r.1.1
        some (q.1, q.2)
    else some (r.1.2, false)

/-- ToSlice applied to `Chunked(xs, n)` (`none` is the panic). -/
def chunkedToSlice {A : Type} (n : Int) (l : List A) :
    Option (List (List A) × Bool) :=
  Chunked n l collectYield []

/-- Functional description of chunking: successive groups of `n`
elements, the last group possibly shorter.  The operational `Chunked`
run is proved to produce exactly these groups. -/
def chunksSpec {A : Type} (n : Nat) : List A → List (List A)
  | [] => []
  | a :: l => (a :: l).take n :: chunksSpec n (l.drop (n - 1))
  termination_by l => l.length
  decreasing_by simp only [List.length_drop, List.length_cons]; omega

/-- The callback that `MapFilter(seq, f)` installs on its upstream:
`if b, ok := f(a); ok { return yield(b) }; return true`
(iter.go lines 317-327).  The Go `f` may be a closure over mutable
state (as in `Unique`), so it is embedded with an explicit state `τ`;
a stateless `f` is the special case where `τ` is ignored. -/
def mapFilterYield {σ τ I O : Type} (f : τ → I → τ × O × Bool)
    (yield : Yield σ O) : Yield (τ × σ) I :=
  fun p a =>
    let r := f p.1 a
    if r.2.2 then
      let q := yield p.2 r.2.1
      ((r.1, q.1), q.2)
    else ((r.1, p.2), true)

/-- Run of `MapFilter(seq, f)` (iter.go lines 317-327) with the
upstream denoted by `l` and the closure state of `f` starting at `t`. -/
def MapFilter {σ τ I O : Type} (l : List I) (f : τ → I → τ × O × Bool)
    (t : τ) (yield : Yield σ O) (s : σ) : (τ × σ) × Bool :=
  runList l (mapFilterYield f yield) (t, s)

/-- The closure `Unique` passes to `MapFilter` (iter.go lines 306-313),
with its captured `seen` set made explicit:
`if seen.Contains(x) { return a, false }; seen.Add(x); return x, true`.
The `Set` collaborator (`Contains`/`Add`) is modelled from the spec
(§6) as a membership list; the Go zero value returned in the
filtered-out branch is never consumed downstream, so the element itself
stands in for it. -/
def uniqueF {A : Type} [DecidableEq A] : List A → A → List A × A × Bool :=
  fun seen x => if x ∈ seen then (seen, x, false) else (x :: seen, x, true)

/-- One run of the sequence returned by `Unique(xs)` (iter.go lines
303-314).  In the Go code the `seen` set is created once, outside the
returned sequence closure, so it persists across runs of the returned
value: a run therefore takes the current `seen` as input and returns
the updated `seen` alongside the downstream state. -/
def uniqueRun {σ A : Type} [DecidableEq A] (l : List A) (seen : List A)
    (yield : Yield σ A) (s : σ) : (List A × σ) × Bool :=
  MapFilter l uniqueF seen yield s

/-- ToSlice run twice on one and the same `Unique(xs)` value: the first
run starts from the empty `seen` that `Unique` created; the second run
starts from whatever `seen` the first run left behind.  Returns the two
collected slices. -/
def uniqueToSliceTwice {A : Type} [DecidableEq A] (l : List A) :
    List A × List A :=
  let r1 := uniqueRun l [] collectYield []
  let r2 := uniqueRun l r1.1.1 collectYield []
  (r1.1.2, r2.1.2)

/-- The post-loop step of `Chunked` (iter.go line 172): emit the
leftover partial chunk if it is nonempty (`len(chunk) == 0 ||
yield(chunk)` with the collecting consumer), paired with the run
result. -/
def chunkedFinish {A : Type} (r : (List A × List (List A)) × Bool) :
    List (List A) × Bool :=
  ((if r.1.1.length = 0 then r.1.2 else r.1.2 ++ [r.1.1]), r.2)

/-- A downstream consumer that closes over a received-values counter
and stops after receiving `k` values: its yield returns `true` for the
first `k - 1` values and `false` on the `k`-th. -/
def stopAfterYield {O : Type} (k : Nat) : Yield Nat O :=
  fun c _ => (c + 1, decide (c + 1 < k))

/-- Number of elements the upstream `s` is asked to produce when
`Map(Filter(s, p), f)` is consumed by `stopAfterYield k`: by the `Map`
and `Filter` definitions, the callback the pipeline installs on `s` is
`filterYield p (mapYield f (stopAfterYield k))`, and `runListCount`
counts how many times it is invoked before `s` stops. -/
def pipelineConsumed {I O : Type} (p : I → Bool) (f : I → O) (k : Nat)
    (l : List I) : Nat :=
  (runListCount l (filterYield p (mapYield f (stopAfterYield k))) 0).1

/-- The minimal number of elements of `l` needed to obtain `k` elements
satisfying `p`: the length of the shortest prefix of `l` containing
`k` accepted elements. -/
def minNeeded {I : Type} (p : I → Bool) : List I → Nat → Nat
  | [], _ => 0
  | a :: l, k =>
    if p a then (if k ≤ 1 then 1 else minNeeded p l (k - 1) + 1)
    else minNeeded p l k + 1

/-- Modelled from the spec (§4.2): the Pull Adapter (`Pull`, repository
code outside `src/`) turns the sequence `y` into an imperative handle
whose `next()` returns the successive elements of `y` and then reports
exhaustion.  For a finite well-behaved `y` denoted by `ly` this is a
cursor over `ly`: the list of values not yet consumed, whose head is
the currently-held `(vy, ok)` pair (`ok` is false iff the list is
empty).  `stop()` only releases the producer and has no observable
effect on the values. -/
def pullNext {V : Type} (ys : List V) : Option V × List V :=
  match ys with
  | [] => (none, [])
  | v :: rest => (some v, rest)

/-- The inner loop of the callback `MergeFunc` passes to `x`
(iter.go lines 94-102):
`for ok && f(vx, vy) > 0 { if !yield(vy) { return false }; vy, ok = next() }; return yield(vx)`.
The y-cursor is the list whose head is the currently held `vy`. -/
def mergeInner {σ V : Type} (f : V → V → Int) (yield : Yield σ V) (vx : V) :
    σ → List V → σ × List V × Bool
  | s, [] =>
    let q := yield s vx
    (q.1, [], q.2)
  | s, vy :: ys =>
    if 0 < f vx vy then
      let q := yield s vy
      if q.2 then mergeInner f yield vx q.1 ys
      else (q.1, vy :: ys, false)
    else
      let q := yield s vx
      (q.1, vy :: ys, q.2)

/-- The callback `MergeFunc` passes to `x`, as a `Yield` whose state is
the downstream state paired with the y-cursor. -/
def mergeXYield {σ V : Type} (f : V → V → Int) (yield : Yield σ V) :
    Yield (σ × List V) V :=
  fun p vx =>
    let r := mergeInner f yield vx p.1 p.2
    ((r.1, r.2.1), r.2.2)

/-- Run of `MergeFunc(x, y, f)` (iter.go lines 89-115): pull the first
`y` value, drive `x` with the `mergeXYield` callback, then — if `x`
completed naturally — drain the remaining `y` values
(lines 106-111); if `x` was stopped, return `false` (line 103). -/
def MergeFunc {σ V : Type} (f : V → V → Int) (lx ly : List V)
    (yield : Yield σ V) (s : σ) : σ × Bool :=
  let r := runList lx (mergeXYield f yield) (s, ly)
  if r.2 then runList r.1.2 yield r.1.1
  else (r.1.1, false)

/-- ToSlice applied to `MergeFunc(x, y, f)`. -/
def mergeToSlice {V : Type} (f : V → V → Int) (lx ly : List V) : List V :=
  (MergeFunc f lx ly collectYield []).1

/-- Go `cmp.Compare` on an ordered type: `-1` if `a < b`, `+1` if
`a > b`, `0` otherwise. -/
def cmpCompare {V : Type} [LinearOrder V] (a b : V) : Int :=
  if a < b then -1 else if b < a then 1 else 0

/-- `Merge(x, y)` (iter.go lines 126-128): `MergeFunc` with
`cmp.Compare` as the ordering function. -/
def Merge {σ V : Type} [LinearOrder V] (lx ly : List V) (yield : Yield σ V)
    (s : σ) : σ × Bool :=
  MergeFunc cmpCompare lx ly yield s

/-- ToSlice applied to `Merge(x, y)`. -/
def mergeOrdToSlice {V : Type} [LinearOrder V] (lx ly : List V) : List V :=
  (Merge lx ly collectYield []).1

/-- Functional (list-level) description of the merge output: emit the
`y` head first exactly when `f vx vy > 0`, i.e. on ties the `x` element
comes first.  The operational `MergeFunc` run is proved equal to it. -/
def mergeListSpec {V : Type} (f : V → V → Int) : List V → List V → List V
  | [], ly => ly
  | lx, [] => lx
  | vx :: lx, vy :: ly =>
    if 0 < f vx vy then vy :: mergeListSpec f (vx :: lx) ly
    else vx :: mergeListSpec f lx (vy :: ly)
  termination_by lx ly => lx.length + ly.length

/-! Step equations for `runList` and the named callbacks, used to unfold
runs one element at a time without rewriting under binders. -/

theorem runList_nil {σ V : Type} (yield : Yield σ V) (s : σ) :
    runList [] yield s = (s, true) := rfl

theorem runList_cons {σ V : Type} (v : V) (rest : List V) (yield : Yield σ V)
    (s : σ) :
    runList (v :: rest) yield s =
      if (yield s v).2 then runList rest yield (yield s v).1
      else ((yield s v).1, false) := rfl

theorem takeYield_stop {σ V : Type} (n : Int) (yield : Yield σ V) (t : Int)
    (s : σ) (v : V) (h : t = n) :
    takeYield n yield (t, s) v = ((t, s), false) := by
  simp [takeYield, h]

theorem takeYield_go {σ V : Type} (n : Int) (yield : Yield σ V) (t : Int)
    (s : σ) (v : V) (h : t ≠ n) :
    takeYield n yield (t, s) v = ((t + 1, (yield s v).1), (yield s v).2) := by
  simp [takeYield, h]

theorem skipYield_go {σ V : Type} (n : Int) (yield : Yield σ V) (t : Int)
    (s : σ) (v : V) (h : t ≠ n) :
    skipYield n yield (t, s) v = ((t + 1, s), true) := by
  simp [skipYield, h]

theorem takeWhileYield_pass {σ V : Type} (p : V → Bool) (yield : Yield σ V)
    (s : σ) (a : V) (h : p a = true) :
    takeWhileYield p yield s a = ((yield s a).1, true) := by
  simp [takeWhileYield, h]

theorem takeWhileYield_fail {σ V : Type} (p : V → Bool) (yield : Yield σ V)
    (s : σ) (a : V) (h : p a = false) :
    takeWhileYield p yield s a = (s, false) := by
  simp [takeWhileYield, h]

/-! Lemmas about `Skip` with a negative count. -/

theorem skip_neg_aux {σ V : Type} (n : Int) (hn : n < 0) (yield : Yield σ V)
    (l : List V) (t : Int) (s : σ) (ht : 0 ≤ t) :
    runList l (skipYield n yield) (t, s) = ((t + l.length, s), true) := by
  induction l generalizing t with
  | nil => simp [runList_nil]
  | cons v rest ih =>
    rw [runList_cons, skipYield_go n yield t s v (by omega)]
    simp only [if_true]
    rw [ih (t + 1) (by omega)]
    simp only [List.length_cons]
    congr 2
    push_cast
    ring

/-! Lemmas characterizing `Take`. -/

theorem take_run_bool_aux {σ V : Type} (n : Int) (yield : Yield σ V)
    (hy : ∀ s v, (yield s v).2 = true) (l : List V) (t : Int) (s : σ)
    (ht : t ≤ n) :
    (runList l (takeYield n yield) (t, s)).2 =
      decide ((l.length : Int) ≤ n - t) := by
  induction l generalizing t s with
  | nil =>
    simp only [runList_nil, List.length_nil, Nat.cast_zero]
    symm
    simp only [decide_eq_true_eq]
    omega
  | cons v rest ih =>
    by_cases h : t = n
    · rw [runList_cons, takeYield_stop n yield t s v h]
      simp only [Bool.false_eq_true, if_false, List.length_cons]
      symm
      simp only [decide_eq_false_iff_not]
      push_cast
      omega
    · rw [runList_cons, takeYield_go n yield t s v h]
      simp only [hy, if_true]
      rw [ih (t + 1) ((yield s v).1) (by omega)]
      simp only [List.length_cons]
      congr 1
      simp only [eq_iff_iff]
      push_cast
      omega

theorem take_collect_aux {V : Type} (n : Int) (l : List V) (t : Int)
    (acc : List V) (ht : 0 ≤ t) (htn : t ≤ n) :
    runList l (takeYield n collectYield) (t, acc) =
      ((t + min (l.length : Int) (n - t), acc ++ l.take (n - t).toNat),
        decide ((l.length : Int) ≤ n - t)) := by
  induction l generalizing t acc with
  | nil =>
    simp only [runList_nil, List.length_nil, Nat.cast_zero, List.take_nil,
      List.append_nil, Prod.mk.injEq]
    refine ⟨⟨by omega, trivial⟩, ?_⟩
    symm
    simp only [decide_eq_true_eq]
    omega
  | cons v rest ih =>
    by_cases h : t = n
    · rw [runList_cons, takeYield_stop n collectYield t acc v h]
      have h0 : (n - t).toNat = 0 := by omega
      simp only [Bool.false_eq_true, if_false, List.length_cons, h0,
        List.take_zero, List.append_nil, Prod.mk.injEq]
      refine ⟨⟨by push_cast; omega, trivial⟩, ?_⟩
      symm
      simp only [decide_eq_false_iff_not]
      push_cast
      omega
    · rw [runList_cons, takeYield_go n collectYield t acc v h]
      simp only [collectYield, if_true]
      rw [ih (t + 1) (acc ++ [v]) (by omega) (by omega)]
      have h1 : (n - t).toNat = (n - (t + 1)).toNat + 1 := by omega
      simp only [List.length_cons, h1, List.take_succ_cons,
        List.append_assoc, List.singleton_append, Prod.mk.injEq]
      refine ⟨⟨by push_cast; omega, trivial⟩, ?_⟩
      congr 1
      simp only [eq_iff_iff]
      push_cast
      omega

/-! Lemmas about `mergeListSpec` and the bridge from the operational
`MergeFunc` run to it. -/

theorem runList_collect {V : Type} (l : List V) (acc : List V) :
    runList l collectYield acc = (acc ++ l, true) := by
  induction l generalizing acc with
  | nil => simp [runList_nil]
  | cons v rest ih =>
    rw [runList_cons]
    simp only [collectYield, if_true]
    rw [ih (acc ++ [v])]
    simp

theorem mergeListSpec_nil_left {V : Type} (f : V → V → Int) (ly : List V) :
    mergeListSpec f [] ly = ly := by
  cases ly <;> simp [mergeListSpec]

theorem mergeListSpec_nil_right {V : Type} (f : V → V → Int) (lx : List V) :
    mergeListSpec f lx [] = lx := by
  cases lx <;> simp [mergeListSpec]

theorem mergeListSpec_cons_cons {V : Type} (f : V → V → Int) (vx vy : V)
    (lx ly : List V) :
    mergeListSpec f (vx :: lx) (vy :: ly) =
      if 0 < f vx vy then vy :: mergeListSpec f (vx :: lx) ly
      else vx :: mergeListSpec f lx (vy :: ly) := by
  simp [mergeListSpec]

theorem mergeInner_collect {V : Type} (f : V → V → Int) (vx : V) :
    ∀ (ys acc : List V),
      mergeInner f collectYield vx acc ys =
        (acc ++ ys.takeWhile (fun vy => decide (0 < f vx vy)) ++ [vx],
          ys.dropWhile (fun vy => decide (0 < f vx vy)), true) := by
  intro ys
  induction ys with
  | nil => intro acc; simp [mergeInner, collectYield]
  | cons vy ys ih =>
    intro acc
    by_cases h : 0 < f vx vy
    · simp only [mergeInner, collectYield, if_pos h, if_true]
      rw [ih (acc ++ [vy])]
      simp [List.takeWhile_cons, List.dropWhile_cons, h]
    · simp only [mergeInner, collectYield, if_neg h]
      simp [List.takeWhile_cons, List.dropWhile_cons, h]

theorem mergeListSpec_cons_left {V : Type} (f : V → V → Int) (vx : V)
    (lx : List V) :
    ∀ ly : List V,
      mergeListSpec f (vx :: lx) ly =
        ly.takeWhile (fun vy => decide (0 < f vx vy)) ++
          vx :: mergeListSpec f lx
            (ly.dropWhile (fun vy => decide (0 < f vx vy))) := by
  intro ly
  induction ly with
  | nil => simp [mergeListSpec_nil_right]
  | cons vy ly ih =>
    by_cases h : 0 < f vx vy
    · rw [mergeListSpec_cons_cons, if_pos h, ih]
      simp [List.takeWhile_cons, List.dropWhile_cons, h]
    · rw [mergeListSpec_cons_cons, if_neg h]
      simp [List.takeWhile_cons, List.dropWhile_cons, h]

/-- Bridge: the operational `MergeFunc` run with the collecting consumer
computes exactly `mergeListSpec` (appended to the accumulator) and
reports natural completion. -/
theorem mergeFunc_collect {V : Type} (f : V → V → Int) :
    ∀ (lx ly acc : List V),
      MergeFunc f lx ly collectYield acc =
        (acc ++ mergeListSpec f lx ly, true) := by
  intro lx
  induction lx with
  | nil =>
    intro ly acc
    unfold MergeFunc
    rw [runList_nil]
    simp only [if_true]
    rw [runList_collect, mergeListSpec_nil_left]
  | cons vx lx ih =>
    intro ly acc
    have hstep :
        MergeFunc f (vx :: lx) ly collectYield acc =
          MergeFunc f lx
            (ly.dropWhile (fun vy => decide (0 < f vx vy))) collectYield
            (acc ++ ly.takeWhile (fun vy => decide (0 < f vx vy)) ++ [vx]) := by
      unfold MergeFunc
      rw [runList_cons]
      have hx : mergeXYield f collectYield (acc, ly) vx =
          ((acc ++ ly.takeWhile (fun vy => decide (0 < f vx vy)) ++ [vx],
            ly.dropWhile (fun vy => decide (0 < f vx vy))), true) := by
        unfold mergeXYield
        rw [mergeInner_collect f vx ly acc]
      rw [hx]
      simp
    rw [hstep, ih]
    rw [mergeListSpec_cons_left f vx lx ly]
    simp

theorem mergeToSlice_eq {V : Type} (f : V → V → Int) (lx ly : List V) :
    mergeToSlice f lx ly = mergeListSpec f lx ly := by
  unfold mergeToSlice
  rw [mergeFunc_collect f lx ly []]
  simp

/-- Every value occurs in the merge output exactly as often as in the
two inputs combined, for an arbitrary comparator and arbitrary (not
necessarily ordered) inputs. -/
theorem mergeListSpec_count {V : Type} [DecidableEq V] (f : V → V → Int)
    (v : V) :
    ∀ (lx ly : List V),
      (mergeListSpec f lx ly).count v = lx.count v + ly.count v := by
  intro lx
  induction lx with
  | nil => intro ly; simp [mergeListSpec_nil_left]
  | cons vx lx ih =>
    intro ly
    rw [mergeListSpec_cons_left f vx lx ly]
    have hsplit : ly.count v =
        (ly.takeWhile (fun vy => decide (0 < f vx vy))).count v +
          (ly.dropWhile (fun vy => decide (0 < f vx vy))).count v := by
      conv_lhs => rw [← List.takeWhile_append_dropWhile
        (p := fun vy => decide (0 < f vx vy)) (l := ly)]
      rw [List.count_append]
    rw [hsplit]
    simp only [List.count_append, List.count_cons, ih]
    omega

theorem mergeListSpec_mem {V : Type} (f : V → V → Int) (v : V) :
    ∀ (lx ly : List V),
      v ∈ mergeListSpec f lx ly ↔ v ∈ lx ∨ v ∈ ly := by
  intro lx
  induction lx with
  | nil => intro ly; simp [mergeListSpec_nil_left]
  | cons vx lx ih =>
    intro ly
    rw [mergeListSpec_cons_left f vx lx ly]
    simp only [List.mem_append, List.mem_cons, ih]
    constructor
    · rintro (h | h | h | h)
      · exact Or.inr (List.takeWhile_subset _ h)
      · exact Or.inl (Or.inl h)
      · exact Or.inl (Or.inr h)
      · exact Or.inr (List.dropWhile_subset _ h)
    · rintro ((h | h) | h)
      · exact Or.inr (Or.inl h)
      · exact Or.inr (Or.inr (Or.inl h))
      · by_cases hv : v ∈ ly.takeWhile (fun vy => decide (0 < f vx vy))
        · exact Or.inl hv
        · right; right; right
          have := List.takeWhile_append_dropWhile
            (p := fun vy => decide (0 < f vx vy)) (l := ly)
          rw [← this] at h
          rcases List.mem_append.mp h with h1 | h1
          · exact absurd h1 hv
          · exact h1

/-- Pairwise preservation of the stable two-way merge: if both inputs
are `R`-pairwise, `R` is transitive, and the comparator decision agrees
with `R` across the two inputs, then the merged list is `R`-pairwise. -/
theorem mergeListSpec_pairwise {V : Type} (f : V → V → Int)
    (R : V → V → Prop) (htrans : ∀ a b c, R a b → R b c → R a c) :
    ∀ (lx ly : List V), lx.Pairwise R → ly.Pairwise R →
      (∀ a ∈ lx, ∀ b ∈ ly, (¬ 0 < f a b → R a b) ∧ (0 < f a b → R b a)) →
      (mergeListSpec f lx ly).Pairwise R := by
  intro lx
  induction lx with
  | nil =>
    intro ly _ hy _
    rw [mergeListSpec_nil_left]
    exact hy
  | cons vx lx ihx =>
    intro ly
    induction ly with
    | nil =>
      intro hx _ _
      rw [mergeListSpec_nil_right]
      exact hx
    | cons vy ly ihy =>
      intro hx hy hcross
      by_cases h : 0 < f vx vy
      · rw [mergeListSpec_cons_cons, if_pos h]
        have hyvx : R vy vx :=
          (hcross vx (List.mem_cons_self vx lx) vy
            (List.mem_cons_self vy ly)).2 h
        constructor
        · intro z hz
          rcases (mergeListSpec_mem f z (vx :: lx) ly).mp hz with hz | hz
          · rcases List.mem_cons.mp hz with rfl | hz
            · exact hyvx
            · exact htrans vy vx z hyvx
                (List.rel_of_pairwise_cons hx hz)
          · exact List.rel_of_pairwise_cons hy hz
        · exact ihy hx (List.Pairwise.sublist (List.sublist_cons_self vy ly) hy)
            (fun a ha b hb => hcross a ha b (List.mem_cons_of_mem vy hb))
      · rw [mergeListSpec_cons_cons, if_neg h]
        have hvxvy : R vx vy :=
          (hcross vx (List.mem_cons_self vx lx) vy
            (List.mem_cons_self vy ly)).1 h
        constructor
        · intro z hz
          rcases (mergeListSpec_mem f z lx (vy :: ly)).mp hz with hz | hz
          · exact List.rel_of_pairwise_cons hx hz
          · rcases List.mem_cons.mp hz with rfl | hz
            · exact hvxvy
            · exact htrans vx vy z hvxvy
                (List.rel_of_pairwise_cons hy hz)
        · exact ihx (vy :: ly)
            (List.Pairwise.sublist (List.sublist_cons_self vx lx) hx) hy
            (fun a ha b hb => hcross a (List.mem_cons_of_mem vx ha) b hb)

/-! Lemmas characterizing `TakeWhile`. -/

theorem takeWhile_bool_aux {σ V : Type} (p : V → Bool) (yield : Yield σ V)
    (l : List V) (s : σ) :
    (runList l (takeWhileYield p yield) s).2 = l.all p := by
  induction l generalizing s with
  | nil => simp [runList_nil]
  | cons v rest ih =>
    by_cases h : p v
    · rw [runList_cons, takeWhileYield_pass p yield s v h]
      simp only [if_true, List.all_cons, h, Bool.true_and]
      exact ih ((yield s v).1)
    · rw [runList_cons,
        takeWhileYield_fail p yield s v (by simpa using h)]
      simp only [Bool.false_eq_true, if_false, List.all_cons]
      simp [Bool.not_eq_true] at h
      simp [h]

theorem takeWhile_collect_aux {V : Type} (p : V → Bool) (l : List V)
    (acc : List V) :
    runList l (takeWhileYield p collectYield) acc =
      (acc ++ l.takeWhile p, l.all p) := by
  induction l generalizing acc with
  | nil => simp [runList_nil]
  | cons v rest ih =>
    by_cases h : p v
    · rw [runList_cons, takeWhileYield_pass p collectYield acc v h]
      simp only [collectYield, if_true]
      rw [ih (acc ++ [v])]
      simp [List.takeWhile_cons, h, List.all_cons]
    · rw [runList_cons,
        takeWhileYield_fail p collectYield acc v (by simpa using h)]
      simp only [Bool.false_eq_true, if_false]
      simp [Bool.not_eq_true] at h
      simp [List.takeWhile_cons, h, List.all_cons]

/-! Lemmas characterizing `Chunked`. -/

theorem runList_cons_true {σ V : Type} (v : V) (rest : List V)
    (yield : Yield σ V) (s s' : σ) (h : yield s v = (s', true)) :
    runList (v :: rest) yield s = runList rest yield s' := by
  rw [runList_cons, h]
  simp

theorem runList_cons_false {σ V : Type} (v : V) (rest : List V)
    (yield : Yield σ V) (s s' : σ) (h : yield s v = (s', false)) :
    runList (v :: rest) yield s = (s', false) := by
  rw [runList_cons, h]
  simp

theorem chunkYield_collect_full {A : Type} (n : Int) (chunk : List A)
    (acc : List (List A)) (a : A) (h : ((chunk ++ [a]).length : Int) = n) :
    chunkYield n collectYield (chunk, acc) a =
      (([], acc ++ [chunk ++ [a]]), true) := by
  have h2 : (chunk.length : Int) + 1 = n := by
    simp only [List.length_append, List.length_cons, List.length_nil] at h
    push_cast at h
    omega
  simp [chunkYield, collectYield, h2]

theorem chunkYield_collect_grow {A : Type} (n : Int) (chunk : List A)
    (acc : List (List A)) (a : A)
    (h : ¬ ((chunk ++ [a]).length : Int) = n) :
    chunkYield n collectYield (chunk, acc) a =
      ((chunk ++ [a], acc), true) := by
  have h2 : ¬ (chunk.length : Int) + 1 = n := by
    simp only [List.length_append, List.length_cons, List.length_nil] at h
    push_cast at h ⊢
    omega
  simp [chunkYield, collectYield, h2]

theorem chunksSpec_nil {A : Type} (n : Nat) :
    chunksSpec n ([] : List A) = [] := by
  rw [chunksSpec]

theorem chunksSpec_cons {A : Type} (n : Nat) (hn : 1 ≤ n) (a : A)
    (l : List A) :
    chunksSpec n (a :: l) =
      (a :: l).take n :: chunksSpec n ((a :: l).drop n) := by
  obtain ⟨m, rfl⟩ : ∃ m, n = m + 1 := ⟨n - 1, by omega⟩
  rw [chunksSpec]
  simp [List.drop_succ_cons]

theorem chunksSpec_ne_nil {A : Type} (n : Nat) (hn : 1 ≤ n) (l : List A)
    (hl : l ≠ []) :
    chunksSpec n l = l.take n :: chunksSpec n (l.drop n) := by
  cases l with
  | nil => exact absurd rfl hl
  | cons a l => exact chunksSpec_cons n hn a l

theorem chunksSpec_flatten {A : Type} (n : Nat) (hn : 1 ≤ n) :
    ∀ (N : Nat) (l : List A), l.length ≤ N →
      (chunksSpec n l).flatten = l := by
  intro N
  induction N with
  | zero =>
    intro l hl
    have h0 : l = [] := List.eq_nil_of_length_eq_zero (by omega)
    subst h0
    simp [chunksSpec_nil]
  | succ N ih =>
    intro l hl
    cases l with
    | nil => simp [chunksSpec_nil]
    | cons a l =>
      have hlen2 : ((a :: l).drop n).length ≤ N := by
        simp only [List.length_drop, List.length_cons]
        simp only [List.length_cons] at hl
        omega
      rw [chunksSpec_cons n hn a l, List.flatten_cons,
        ih ((a :: l).drop n) hlen2]
      exact List.take_append_drop n (a :: l)

theorem chunksSpec_mem_len {A : Type} (n : Nat) (hn : 1 ≤ n) :
    ∀ (N : Nat) (l : List A), l.length ≤ N →
      ∀ c ∈ chunksSpec n l, 1 ≤ c.length ∧ c.length ≤ n := by
  intro N
  induction N with
  | zero =>
    intro l hl
    have h0 : l = [] := List.eq_nil_of_length_eq_zero (by omega)
    subst h0
    simp [chunksSpec_nil]
  | succ N ih =>
    intro l hl
    cases l with
    | nil => simp [chunksSpec_nil]
    | cons a l =>
      have hlen2 : ((a :: l).drop n).length ≤ N := by
        simp only [List.length_drop, List.length_cons]
        simp only [List.length_cons] at hl
        omega
      rw [chunksSpec_cons n hn a l]
      intro c hc
      rcases List.mem_cons.mp hc with rfl | hc
      · simp only [List.length_take, List.length_cons]
        omega
      · exact ih ((a :: l).drop n) hlen2 c hc

theorem chunksSpec_dropLast_len {A : Type} (n : Nat) (hn : 1 ≤ n) :
    ∀ (N : Nat) (l : List A), l.length ≤ N →
      ∀ c ∈ (chunksSpec n l).dropLast, c.length = n := by
  intro N
  induction N with
  | zero =>
    intro l hl
    have h0 : l = [] := List.eq_nil_of_length_eq_zero (by omega)
    subst h0
    simp [chunksSpec_nil]
  | succ N ih =>
    intro l hl
    cases l with
    | nil => simp [chunksSpec_nil]
    | cons a l =>
      have hlen2 : ((a :: l).drop n).length ≤ N := by
        simp only [List.length_drop, List.length_cons]
        simp only [List.length_cons] at hl
        omega
      rw [chunksSpec_cons n hn a l]
      by_cases hrest : (a :: l).drop n = []
      · rw [hrest, chunksSpec_nil]
        simp
      · have hne : chunksSpec n ((a :: l).drop n) ≠ [] := by
          rw [chunksSpec_ne_nil n hn ((a :: l).drop n) hrest]
          exact List.cons_ne_nil _ _
        rw [List.dropLast_cons_of_ne_nil hne]
        intro c hc
        rcases List.mem_cons.mp hc with rfl | hc
        · have hlen3 : n < (a :: l).length := by
            rcases Nat.lt_or_ge n (a :: l).length with h | h
            · exact h
            · exact absurd (List.drop_eq_nil_of_le h) hrest
          simp only [List.length_take]
          omega
        · exact ih ((a :: l).drop n) hlen2 c hc

theorem chunked_loop {A : Type} (n : Int) (hn : 0 < n) :
    ∀ (l chunk : List A) (acc : List (List A)), (chunk.length : Int) < n →
      chunkedFinish (runList l (chunkYield n collectYield) (chunk, acc)) =
        (acc ++ chunksSpec n.toNat (chunk ++ l), true) := by
  intro l
  induction l with
  | nil =>
    intro chunk acc hlen
    rw [runList_nil, List.append_nil]
    by_cases hc : chunk.length = 0
    · have h0 : chunk = [] := List.eq_nil_of_length_eq_zero hc
      subst h0
      simp [chunkedFinish, chunksSpec_nil]
    · have hne : chunk ≠ [] := fun h => hc (by rw [h]; rfl)
      unfold chunkedFinish
      simp only [hc, if_false]
      rw [chunksSpec_ne_nil n.toNat (by omega) chunk hne,
        List.take_of_length_le (by omega),
        List.drop_eq_nil_of_le (by omega), chunksSpec_nil]
  | cons a rest ih =>
    intro chunk acc hlen
    by_cases hfull : ((chunk ++ [a]).length : Int) = n
    · rw [runList_cons_true a rest _ _ _
        (chunkYield_collect_full n chunk acc a hfull)]
      rw [ih [] (acc ++ [chunk ++ [a]]) (by simpa using hn)]
      simp only [List.nil_append]
      have hsplit : chunk ++ a :: rest = (chunk ++ [a]) ++ rest := by
        simp
      have hlen4 : (chunk ++ [a]).length = n.toNat := by
        simp only [List.length_append, List.length_cons,
          List.length_nil] at hfull ⊢
        omega
      rw [hsplit, chunksSpec_ne_nil n.toNat (by omega)
        ((chunk ++ [a]) ++ rest) (by simp),
        List.take_left' hlen4, List.drop_left' hlen4]
      simp
    · rw [runList_cons_true a rest _ _ _
        (chunkYield_collect_grow n chunk acc a hfull)]
      have hlen5 : (((chunk ++ [a]).length : Int)) < n := by
        simp only [List.length_append, List.length_cons,
          List.length_nil] at hfull ⊢
        push_cast at hfull ⊢
        omega
      rw [ih (chunk ++ [a]) acc hlen5]
      have hsplit : chunk ++ a :: rest = (chunk ++ [a]) ++ rest := by
        simp
      rw [hsplit]

/-! Lemmas for the early-stop behaviour of the
`Map(Filter(s, p), f)` pipeline. -/

theorem runListCount_cons {σ V : Type} (v : V) (rest : List V)
    (yield : Yield σ V) (s : σ) :
    runListCount (v :: rest) yield s =
      if (yield s v).2 then
        ((runListCount rest yield (yield s v).1).1 + 1,
          (runListCount rest yield (yield s v).1).2)
      else (1, (yield s v).1, false) := rfl

theorem pipeYield_pass {I O : Type} (p : I → Bool) (f : I → O) (k : Nat)
    (c : Nat) (a : I) (h : p a = true) :
    filterYield p (mapYield f (stopAfterYield k)) c a =
      (c + 1, decide (c + 1 < k)) := by
  simp [filterYield, mapYield, stopAfterYield, h]

theorem pipeYield_fail {I O : Type} (p : I → Bool) (f : I → O) (k : Nat)
    (c : Nat) (a : I) (h : p a = false) :
    filterYield p (mapYield f (stopAfterYield k)) c a = (c, true) := by
  simp [filterYield, h]

theorem minNeeded_nil {I : Type} (p : I → Bool) (k : Nat) :
    minNeeded p [] k = 0 := rfl

theorem minNeeded_cons {I : Type} (p : I → Bool) (a : I) (l : List I)
    (k : Nat) :
    minNeeded p (a :: l) k =
      if p a then (if k ≤ 1 then 1 else minNeeded p l (k - 1) + 1)
      else minNeeded p l k + 1 := rfl

theorem pipeline_consumed_aux {I O : Type} (p : I → Bool) (f : I → O)
    (k : Nat) :
    ∀ (l : List I) (c : Nat), c < k → k - c ≤ l.countP p →
      (runListCount l (filterYield p (mapYield f (stopAfterYield k))) c).1 =
        minNeeded p l (k - c) := by
  intro l
  induction l with
  | nil =>
    intro c hc hcount
    simp only [List.countP_nil] at hcount
    omega
  | cons a l ih =>
    intro c hc hcount
    simp only [List.countP_cons] at hcount
    by_cases hpa : p a = true
    · rw [runListCount_cons, pipeYield_pass p f k c a hpa]
      rw [minNeeded_cons, if_pos hpa]
      by_cases hlt : c + 1 < k
      · have hd : decide (c + 1 < k) = true := decide_eq_true hlt
        simp only [hd, if_true]
        rw [ih (c + 1) hlt (by simp only [hpa, if_true] at hcount; omega)]
        rw [if_neg (by omega)]
        have harg : k - c - 1 = k - (c + 1) := by omega
        rw [harg]
      · have hd : decide (c + 1 < k) = false := decide_eq_false hlt
        simp only [hd, Bool.false_eq_true, if_false]
        rw [if_pos (by omega)]
    · have hpa' : p a = false := by simpa using hpa
      rw [runListCount_cons, pipeYield_fail p f k c a hpa']
      simp only [if_true]
      rw [minNeeded_cons, if_neg hpa]
      rw [ih c hc (by simp only [hpa', Bool.false_eq_true, if_false] at hcount; omega)]

theorem minNeeded_count {I : Type} (p : I → Bool) :
    ∀ (l : List I) (k : Nat), 1 ≤ k → k ≤ l.countP p →
      (l.take (minNeeded p l k)).countP p = k := by
  intro l
  induction l with
  | nil =>
    intro k h1 h2
    simp only [List.countP_nil] at h2
    omega
  | cons a l ih =>
    intro k h1 h2
    simp only [List.countP_cons] at h2
    rw [minNeeded_cons]
    by_cases hpa : p a = true
    · rw [if_pos hpa]
      by_cases hk : k ≤ 1
      · rw [if_pos hk]
        simp only [List.take_succ_cons, List.take_zero, List.countP_cons,
          List.countP_nil, hpa, if_true]
        omega
      · rw [if_neg hk]
        simp only [List.take_succ_cons, List.countP_cons, hpa, if_true]
        rw [ih (k - 1) (by omega) (by simp only [hpa, if_true] at h2; omega)]
        omega
    · have hpa' : p a = false := by simpa using hpa
      rw [if_neg hpa]
      simp only [List.take_succ_cons, List.countP_cons, hpa',
        Bool.false_eq_true, if_false]
      rw [ih k h1 (by simp only [hpa', Bool.false_eq_true, if_false] at h2; omega)]
      omega

theorem minNeeded_min {I : Type} (p : I → Bool) :
    ∀ (l : List I) (k m : Nat), 1 ≤ k → (l.take m).countP p = k →
      minNeeded p l k ≤ m := by
  intro l
  induction l with
  | nil =>
    intro k m h1 h2
    simp [minNeeded_nil]
  | cons a l ih =>
    intro k m h1 h2
    cases m with
    | zero =>
      simp only [List.take_zero, List.countP_nil] at h2
      omega
    | succ m =>
      rw [List.take_succ_cons] at h2
      simp only [List.countP_cons] at h2
      rw [minNeeded_cons]
      by_cases hpa : p a = true
      · rw [if_pos hpa]
        simp only [hpa, if_true] at h2
        by_cases hk : k ≤ 1
        · rw [if_pos hk]
          omega
        · rw [if_neg hk]
          have := ih (k - 1) m (by omega) (by omega)
          omega
      · have hpa' : p a = false := by simpa using hpa
        rw [if_neg hpa]
        simp only [hpa', Bool.false_eq_true, if_false] at h2
        have := ih k m h1 (by omega)
        omega

/-! Facts about `cmpCompare` and the merge of tagged elements. -/

theorem cmpCompare_le_zero {V : Type} [LinearOrder V] (a b : V) :
    cmpCompare a b ≤ 0 ↔ a ≤ b := by
  unfold cmpCompare
  by_cases h1 : a < b
  · rw [if_pos h1]
    exact ⟨fun _ => h1.le, fun _ => by norm_num⟩
  · rw [if_neg h1]
    by_cases h2 : b < a
    · rw [if_pos h2]
      exact ⟨fun hc => by norm_num at hc, fun hc => absurd hc (not_le.mpr h2)⟩
    · rw [if_neg h2]
      exact ⟨fun _ => le_of_not_lt h2, fun _ => le_refl 0⟩

theorem cmpCompare_pos {V : Type} [LinearOrder V] (a b : V) :
    0 < cmpCompare a b ↔ b < a := by
  unfold cmpCompare
  by_cases h1 : a < b
  · rw [if_pos h1]
    exact ⟨fun hc => by norm_num at hc, fun hc => absurd hc (asymm h1)⟩
  · rw [if_neg h1]
    by_cases h2 : b < a
    · rw [if_pos h2]
      exact ⟨fun _ => h2, fun _ => by norm_num⟩
    · rw [if_neg h2]
      exact ⟨fun hc => by norm_num at hc, fun hc => absurd hc h2⟩

theorem mergeOrdToSlice_eq {V : Type} [LinearOrder V] (lx ly : List V) :
    mergeOrdToSlice lx ly = mergeListSpec cmpCompare lx ly :=
  mergeToSlice_eq cmpCompare lx ly

/-- Merging pairs with a comparator that only looks at the first
component commutes with projecting the first component. -/
theorem mergeListSpec_map_fst {V W : Type} (f : V → V → Int) :
    ∀ (px py : List (V × W)),
      (mergeListSpec (fun a b => f a.1 b.1) px py).map Prod.fst =
        mergeListSpec f (px.map Prod.fst) (py.map Prod.fst) := by
  intro px
  induction px with
  | nil => intro py; simp [mergeListSpec_nil_left]
  | cons a px ihx =>
    intro py
    induction py with
    | nil => simp [mergeListSpec_nil_right]
    | cons b py ihy =>
      rw [mergeListSpec_cons_cons, List.map_cons, List.map_cons,
        mergeListSpec_cons_cons]
      by_cases h : 0 < f a.1 b.1
      · rw [if_pos h, if_pos h, List.map_cons, ihy]
        simp
      · rw [if_neg h, if_neg h, List.map_cons, ihx (b :: py)]
        simp

/-! Claim theorems. -/

/-- C5: for every comparator `f` and every pair of finite sequences `x`
and `y` — ordered by `f` or not — `ToSlice(MergeFunc(x, y, f))`
contains every value exactly as many times as it occurs in `x` and `y`
combined: the output is a complete multiset union, with no element lost
or duplicated (and the embedded run is total, so there is no crash). -/
theorem MergeFunc_multiset_union {V : Type} [DecidableEq V]
    (f : V → V → Int) (lx ly : List V) (v : V) :
    (mergeToSlice f lx ly).count v = lx.count v + ly.count v := by
  rw [mergeToSlice_eq]
  exact mergeListSpec_count f v lx ly

/-- C1: on two sequences that are ascending under the comparator,
`ToSlice(Merge(x, y))` is ascending and contains exactly the multiset
union of `x` and `y`; moreover, running the same merge on elements
tagged with their origin (`true` = from `x`, `false` = from `y`, the
comparator looking only at the value) projects back to the same output
and never places a `y`-tagged copy of a value before an `x`-tagged copy
of the same value: on ties the element from `x` precedes the one from
`y`. -/
theorem Merge_sorted_stable_union {V : Type} [LinearOrder V]
    [DecidableEq V] (lx ly : List V)
    (hx : lx.Pairwise fun a b => cmpCompare a b ≤ 0)
    (hy : ly.Pairwise fun a b => cmpCompare a b ≤ 0) :
    (mergeOrdToSlice lx ly).Pairwise (fun a b => cmpCompare a b ≤ 0) ∧
      (∀ v, (mergeOrdToSlice lx ly).count v = lx.count v + ly.count v) ∧
      (mergeToSlice (fun a b => cmpCompare a.1 b.1)
          (lx.map fun v => (v, true)) (ly.map fun v => (v, false))).map
          Prod.fst = mergeOrdToSlice lx ly ∧
      (mergeToSlice (fun a b => cmpCompare a.1 b.1)
          (lx.map fun v => (v, true)) (ly.map fun v => (v, false))).Pairwise
        fun a b => a.1 = b.1 → ¬(a.2 = false ∧ b.2 = true) := by
  have hx' : lx.Pairwise (· ≤ ·) :=
    hx.imp fun h => (cmpCompare_le_zero _ _).mp h
  have hy' : ly.Pairwise (· ≤ ·) :=
    hy.imp fun h => (cmpCompare_le_zero _ _).mp h
  refine ⟨?_, ?_, ?_, ?_⟩
  · rw [mergeOrdToSlice_eq]
    refine mergeListSpec_pairwise cmpCompare _ ?_ lx ly hx hy ?_
    · intro a b c hab hbc
      rw [cmpCompare_le_zero] at hab hbc ⊢
      exact hab.trans hbc
    · intro a _ b _
      constructor
      · intro h
        rw [cmpCompare_pos] at h
        rw [cmpCompare_le_zero]
        exact le_of_not_lt h
      · intro h
        rw [cmpCompare_pos] at h
        rw [cmpCompare_le_zero]
        exact h.le
  · intro v
    rw [mergeOrdToSlice_eq]
    exact mergeListSpec_count cmpCompare v lx ly
  · have hproj : ∀ (c : Bool) (l : List V),
        List.map Prod.fst (List.map (fun v => (v, c)) l) = l := by
      intro c l
      induction l with
      | nil => rfl
      | cons a l ih => simp only [List.map_cons, ih]
    rw [mergeToSlice_eq, mergeOrdToSlice_eq, mergeListSpec_map_fst]
    congr 1
    · exact hproj true lx
    · exact hproj false ly
  · rw [mergeToSlice_eq]
    have hpw := mergeListSpec_pairwise (V := V × Bool)
      (fun a b => cmpCompare a.1 b.1)
      (fun a b => a.1 ≤ b.1 ∧ (b.1 ≤ a.1 → a.2 = false → b.2 = false))
      ?_ (lx.map fun v => (v, true)) (ly.map fun v => (v, false)) ?_ ?_ ?_
    · refine hpw.imp ?_
      intro a b hab heq
      rintro ⟨haf, hbt⟩
      have hbf := hab.2 (le_of_eq heq.symm) haf
      rw [hbt] at hbf
      exact absurd hbf (by simp)
    · rintro a b c ⟨h1, h2⟩ ⟨h3, h4⟩
      exact ⟨h1.trans h3,
        fun hca haf => h4 (hca.trans h1) (h2 (h3.trans hca) haf)⟩
    · rw [List.pairwise_map]
      refine hx'.imp ?_
      intro a b h
      exact ⟨h, fun _ hf => absurd hf (by simp)⟩
    · rw [List.pairwise_map]
      refine hy'.imp ?_
      intro a b h
      exact ⟨h, fun _ _ => rfl⟩
    · intro a ha b hb
      obtain ⟨va, _, rfl⟩ := List.mem_map.mp ha
      obtain ⟨vb, _, rfl⟩ := List.mem_map.mp hb
      constructor
      · intro h
        rw [cmpCompare_pos] at h
        exact ⟨le_of_not_lt h, fun _ hf => absurd hf (by simp)⟩
      · intro h
        rw [cmpCompare_pos] at h
        exact ⟨h.le, fun hle _ => absurd hle (not_le.mpr h)⟩

/-- Witness for C1 at `x = [1, 3, 5]`, `y = [2, 3, 6]` (with the tie
`3` occurring in both inputs). -/
theorem Merge_sorted_stable_union_witness :
    List.Pairwise (fun a b => cmpCompare a b ≤ 0) [(1 : Int), 3, 5] ∧
      List.Pairwise (fun a b => cmpCompare a b ≤ 0) [(2 : Int), 3, 6] ∧
      ((mergeOrdToSlice [(1 : Int), 3, 5] [2, 3, 6]).Pairwise
          (fun a b => cmpCompare a b ≤ 0) ∧
        (∀ v, (mergeOrdToSlice [(1 : Int), 3, 5] [2, 3, 6]).count v =
          [(1 : Int), 3, 5].count v + [(2 : Int), 3, 6].count v) ∧
        (mergeToSlice (fun a b => cmpCompare a.1 b.1)
            ([(1 : Int), 3, 5].map fun v => (v, true))
            ([(2 : Int), 3, 6].map fun v => (v, false))).map Prod.fst =
          mergeOrdToSlice [(1 : Int), 3, 5] [2, 3, 6] ∧
        (mergeToSlice (fun a b => cmpCompare a.1 b.1)
            ([(1 : Int), 3, 5].map fun v => (v, true))
            ([(2 : Int), 3, 6].map fun v => (v, false))).Pairwise
          fun a b => a.1 = b.1 → ¬(a.2 = false ∧ b.2 = true)) :=
  ⟨by decide, by decide,
    Merge_sorted_stable_union [1, 3, 5] [2, 3, 6] (by decide) (by decide)⟩

/-- C9: for every sequence `s` and every negative `n`, `Skip(s, n)`
yields no elements at all (the downstream yield is never invoked and
its state is unchanged), does not panic, and the run returns `true`
when `s` completes naturally. -/
theorem Skip_negative_yields_nothing {σ V : Type} (n : Int) (hn : n < 0)
    (l : List V) (yield : Yield σ V) (s : σ) :
    Skip n l yield s = (s, true) := by
  unfold Skip
  rw [skip_neg_aux n hn yield l 0 s le_rfl]

/-- Witness for C9 at `n = -1`, `l = [1, 2, 3]`. -/
theorem Skip_negative_yields_nothing_witness :
    ((-1 : Int) < 0) ∧
      Skip (-1) [(1 : Nat), 2, 3] collectYield [] = ([], true) :=
  ⟨by decide,
    Skip_negative_yields_nothing (-1) (by decide) [1, 2, 3] collectYield []⟩

/-- C10: with a downstream consumer that never stops, the run of
`Take(s, n)` (for `n ≥ 0`) returns `false` exactly when `s` has more
than `n` elements — the stopped-early signal fires even though `Take`
delivered all `n` of its elements — and returns `true` when `s` has at
most `n` elements. -/
theorem Take_run_result {σ V : Type} (n : Int) (l : List V)
    (yield : Yield σ V) (s : σ) (h0 : 0 ≤ n)
    (hy : ∀ s v, (yield s v).2 = true) :
    (Take n l yield s).map Prod.snd = some (decide ((l.length : Int) ≤ n)) := by
  unfold Take
  rw [if_neg (by omega)]
  show some (runList l (takeYield n yield) (0, s)).2 = _
  congr 1
  rw [take_run_bool_aux n yield hy l 0 s h0]
  congr 1
  simp only [eq_iff_iff]
  omega

/-- Witness for C10 at `n = 1`, `l = [5, 6]` (more elements than `n`,
so the run reports `false`). -/
theorem Take_run_result_witness :
    (0 ≤ (1 : Int)) ∧
      (∀ (s : Unit) (v : Nat), (alwaysTrueYield s v).2 = true) ∧
      (Take 1 [(5 : Nat), 6] alwaysTrueYield ()).map Prod.snd = some false :=
  ⟨by decide, fun _ _ => rfl,
    (Take_run_result 1 [5, 6] alwaysTrueYield () (by decide)
      (fun _ _ => rfl)).trans (by decide)⟩

/-- C6: for `n ≥ 0`, `Take(s, n)` yields exactly the first
`min(n, length(s))` elements of `s` (`l.take n.toNat`, whose length is
`min n.toNat l.length`), and `Take(s, n)` panics (`none`) exactly when
`n` is negative. -/
theorem Take_spec {σ V : Type} (n : Int) (l : List V) (yield : Yield σ V)
    (s : σ) :
    (0 ≤ n →
      takeToSlice n l =
          some (l.take n.toNat, decide ((l.length : Int) ≤ n)) ∧
        (l.take n.toNat).length = min n.toNat l.length) ∧
    (Take n l yield s = none ↔ n < 0) := by
  constructor
  · intro h0
    constructor
    · unfold takeToSlice Take
      rw [if_neg (by omega)]
      rw [take_collect_aux n l 0 [] le_rfl h0]
      simp only [List.nil_append, Option.some.injEq, Prod.mk.injEq]
      constructor
      · congr 1
        omega
      · congr 1
        simp only [eq_iff_iff]
        omega
    · simp [List.length_take]
  · unfold Take
    by_cases h : n < 0
    · simp [h]
    · simp [h]

/-- Witness for C6 at `n = 2`, `l = [10, 20, 30]`. -/
theorem Take_spec_witness :
    (0 ≤ (2 : Int)) ∧
      takeToSlice 2 [(10 : Nat), 20, 30] = some ([10, 20], false) ∧
      (Take 2 [(10 : Nat), 20, 30] collectYield [] = none ↔ (2 : Int) < 0) := by
  have h := Take_spec (σ := List Nat) 2 [(10 : Nat), 20, 30] collectYield []
  exact ⟨by decide, (h.1 (by decide)).1.trans (by decide), h.2⟩

/-- C4 counterexample: the claim says the run of `TakeWhile(s, p)`
returns `true` (not-stopped) when an element fails the predicate, with
a downstream consumer that never stops; on `s = [1]` and the
always-false predicate the run in fact returns `false`. -/
theorem TakeWhile_counterexample :
    ¬ (takeWhileToSlice [(1 : Nat)] (fun _ => false)).2 = true := by
  decide

/-- C4 amended: `TakeWhile(s, p)` yields the elements of `s` while `p`
holds and stops (without yielding) at the first failing element; with a
downstream consumer that never stops, its run returns `true` iff every
element satisfies `p` — `false` (stopped early) when some element fails
the predicate, `true` on natural completion. -/
theorem TakeWhile_amended {σ V : Type} (l : List V) (p : V → Bool)
    (yield : Yield σ V) (s : σ) (_hy : ∀ s v, (yield s v).2 = true) :
    takeWhileToSlice l p = (l.takeWhile p, l.all p) ∧
      (TakeWhile l p yield s).2 = l.all p := by
  constructor
  · unfold takeWhileToSlice TakeWhile
    rw [takeWhile_collect_aux p l []]
    simp
  · exact takeWhile_bool_aux p yield l s

/-- Witness for C4 (amended) at `l = [1, 2, 3]`, `p = (· ≤ 1)`: the
output is `[1]` and the run returns `false` because `2` fails `p`. -/
theorem TakeWhile_amended_witness :
    (∀ (s : Unit) (v : Nat), (alwaysTrueYield s v).2 = true) ∧
      takeWhileToSlice [(1 : Nat), 2, 3] (fun v => decide (v ≤ 1)) =
        ([1], false) := by
  have h := TakeWhile_amended (σ := Unit) [(1 : Nat), 2, 3]
    (fun v => decide (v ≤ 1)) alwaysTrueYield () (fun _ _ => rfl)
  exact ⟨fun _ _ => rfl, h.1.trans (by decide)⟩

/-- C3: the spec invariant says a combinator must never call `yield`
after `yield` has returned `false`; `TakeWhile` violates it.  Running
`TakeWhile([1, 2], always-true)` against a consumer whose `yield`
always returns `false` and counts its invocations: `yield` is invoked
twice (the second call happens after the first already returned
`false`), and the run even reports natural completion (`true`), because
the Go code discards the result of `yield(a)`. -/
theorem TakeWhile_calls_yield_after_false :
    TakeWhile [(1 : Nat), 2] (fun _ => true) countingFalseYield 0 =
      (2, true) := by
  decide

/-- C8: if the downstream consumer of `Map(Filter(s, p), f)` stops
after receiving `k` accepted, transformed elements, then `s` is asked
to produce exactly the elements of the shortest prefix containing `k`
accepted elements — in particular no more than the minimal number
needed: the consumed prefix contains exactly `k` accepted elements,
and every prefix containing `k` accepted elements is at least as
long. -/
theorem MapFilter_early_stop_minimal {I O : Type} (p : I → Bool)
    (f : I → O) (k : Nat) (l : List I) (hk : 1 ≤ k)
    (hcount : k ≤ l.countP p) :
    (l.take (pipelineConsumed p f k l)).countP p = k ∧
      ∀ m, (l.take m).countP p = k → pipelineConsumed p f k l ≤ m := by
  have heq : pipelineConsumed p f k l = minNeeded p l k := by
    unfold pipelineConsumed
    have h := pipeline_consumed_aux p f k l 0 (by omega)
      (by simpa using hcount)
    simpa using h
  rw [heq]
  exact ⟨minNeeded_count p l k hk hcount,
    fun m hm => minNeeded_min p l k m hk hm⟩

/-- Witness for C8 at `l = [1, 2, 3, 4, 5]`, `p` = is-even, `k = 2`:
the pipeline consumes exactly the four elements `[1, 2, 3, 4]` needed
for the two accepted elements `2` and `4`. -/
theorem MapFilter_early_stop_minimal_witness :
    (1 ≤ 2) ∧
      (2 ≤ [(1 : Nat), 2, 3, 4, 5].countP fun v => decide (v % 2 = 0)) ∧
      pipelineConsumed (fun v => decide (v % 2 = 0)) (fun v => v * 10) 2
        [(1 : Nat), 2, 3, 4, 5] = 4 ∧
      (([(1 : Nat), 2, 3, 4, 5].take
          (pipelineConsumed (fun v => decide (v % 2 = 0)) (fun v => v * 10)
            2 [(1 : Nat), 2, 3, 4, 5])).countP
          (fun v => decide (v % 2 = 0)) = 2 ∧
        ∀ m, (([(1 : Nat), 2, 3, 4, 5].take m).countP
            fun v => decide (v % 2 = 0)) = 2 →
          pipelineConsumed (fun v => decide (v % 2 = 0)) (fun v => v * 10) 2
            [(1 : Nat), 2, 3, 4, 5] ≤ m) :=
  ⟨by decide, by decide, by decide,
    MapFilter_early_stop_minimal (fun v => decide (v % 2 = 0))
      (fun v => v * 10) 2 [1, 2, 3, 4, 5] (by decide) (by decide)⟩

/-- C7: for `n > 0`, `ToSlice(Chunked(s, n))` is the list of
`chunksSpec`-groups of `ToSlice(s)`: contiguous groups in order whose
concatenation is exactly `ToSlice(s)` (every element covered exactly
once), each group of size in `[1, n]` and every group except possibly
the last of size exactly `n`; `Chunked(s, n)` with `n <= 0` panics
(`none`), and only then. -/
theorem Chunked_spec {σ A : Type} (n : Int) (l : List A)
    (yield : Yield σ (List A)) (s : σ) :
    (0 < n →
      chunkedToSlice n l = some (chunksSpec n.toNat l, true) ∧
        (chunksSpec n.toNat l).flatten = l ∧
        (∀ c ∈ chunksSpec n.toNat l, 1 ≤ c.length ∧ (c.length : Int) ≤ n) ∧
        (∀ c ∈ (chunksSpec n.toNat l).dropLast, (c.length : Int) = n)) ∧
    (Chunked n l yield s = none ↔ n ≤ 0) := by
  constructor
  · intro hn
    have hloop := chunked_loop n hn l [] [] (by simpa using hn)
    simp only [List.nil_append] at hloop
    have h2 : (runList l (chunkYield n collectYield)
        (([] : List A), ([] : List (List A)))).2 = true := by
      have := congrArg Prod.snd hloop
      simpa [chunkedFinish] using this
    have h1 : (if (runList l (chunkYield n collectYield)
          (([] : List A), ([] : List (List A)))).1.1.length = 0
        then (runList l (chunkYield n collectYield)
          (([] : List A), ([] : List (List A)))).1.2
        else (runList l (chunkYield n collectYield)
            (([] : List A), ([] : List (List A)))).1.2 ++
          [(runList l (chunkYield n collectYield)
            (([] : List A), ([] : List (List A)))).1.1]) =
        chunksSpec n.toNat l := by
      have := congrArg Prod.fst hloop
      simpa [chunkedFinish] using this
    refine ⟨?_, ?_, ?_, ?_⟩
    · unfold chunkedToSlice Chunked
      rw [if_neg (by omega)]
      by_cases hlen : (runList l (chunkYield n collectYield)
          (([] : List A), ([] : List (List A)))).1.1.length = 0
      · simp only [hlen, if_true, h2, collectYield]
        rw [← h1]
        simp [hlen]
      · simp only [hlen, if_false, h2, collectYield]
        rw [← h1]
        simp [hlen]
    · exact chunksSpec_flatten n.toNat (by omega) l.length l le_rfl
    · intro c hc
      have := chunksSpec_mem_len n.toNat (by omega) l.length l le_rfl c hc
      exact ⟨this.1, by omega⟩
    · intro c hc
      have := chunksSpec_dropLast_len n.toNat (by omega) l.length l le_rfl c hc
      omega
  · unfold Chunked
    by_cases h : n ≤ 0
    · simp [h]
    · rw [if_neg h]
      simp only [h, iff_false]
      split_ifs <;> simp

/-- Witness for C7 at `n = 2`, `l = [1, 2, 3, 4, 5]` (chunks
`[[1, 2], [3, 4], [5]]`, the last one shorter). -/
theorem Chunked_spec_witness :
    (0 < (2 : Int)) ∧
      chunkedToSlice 2 [(1 : Nat), 2, 3, 4, 5] =
        some ([[1, 2], [3, 4], [5]], true) ∧
      (Chunked 2 [(1 : Nat), 2, 3, 4, 5] collectYield [] = none ↔
        (2 : Int) ≤ 0) := by
  have h := Chunked_spec (σ := List (List Nat)) 2 [(1 : Nat), 2, 3, 4, 5]
    collectYield []
  have e1 : chunksSpec (2 : Int).toNat ([1, 2, 3, 4, 5] : List Nat) =
      [[1, 2], [3, 4], [5]] := by
    rw [show ((2 : Int).toNat) = 2 from rfl]
    rw [chunksSpec_cons 2 (by omega) 1 [2, 3, 4, 5]]
    rw [show List.drop 2 ([1, 2, 3, 4, 5] : List Nat) = [3, 4, 5] from rfl]
    rw [chunksSpec_cons 2 (by omega) 3 [4, 5]]
    rw [show List.drop 2 ([3, 4, 5] : List Nat) = [5] from rfl]
    rw [chunksSpec_cons 2 (by omega) 5 []]
    rw [show List.drop 2 ([5] : List Nat) = [] from rfl, chunksSpec_nil]
    rfl
  refine ⟨by norm_num, ?_, h.2⟩
  rw [(h.1 (by norm_num)).1, e1]

/-- C2: the spec says no combinator caches state across separate runs,
so two ToSlice runs of one `Unique(s)` value must return equal slices;
in the code the `seen` set is created outside the returned closure and
persists, so on `s = [1]` the first run returns `[1]` and the second
returns `[]`. -/
theorem Unique_second_run_differs :
    uniqueToSliceTwice [(1 : Nat)] = ([1], []) ∧
      (uniqueToSliceTwice [(1 : Nat)]).2 ≠ (uniqueToSliceTwice [(1 : Nat)]).1 := by
  decide

end iter
